import Mathlib

/-!
Verification of the `generate_context` repository (`generate_context/main.py`)
against its natural-language specification.

The Python program is shallowly embedded:
  * filesystem paths are lists of segments (`List String`); an absolute path
    `/a/b` is `["a", "b"]`;
  * `os.walk(base)` is modelled by its output: a list of entries, one per
    visited directory, each carrying the directory's path and its files as
    `(name, content)` pairs, in visit order (top-down, so a directory is
    listed before the directories and files below it).  The in-place pruning
    `dirs[:] = [d for d in dirs if not d.startswith(".")]` performed by the
    two consumer walks is modelled by filtering out every entry whose path
    has a hidden segment below the base (pruning a hidden directory removes
    exactly its whole subtree from the walk, in order);
  * Python dicts keep insertion order, so they are association lists where
    an update keeps the key's position and a fresh key is appended;
  * `ast.parse` is external library code; it is modelled as a parameter
    `parse : String → Except String PyStmtList` (a `SyntaxError` is the
    `.error` case, carrying the message `str(e)`); the AST fragments that
    `extract_function_defs_and_docstrings` inspects are the `PyStmt` type,
    with `ast.unparse`d sub-expressions carried as strings and
    `ast.get_docstring` results carried as `Option String` fields;
  * exceptions that escape a function are `Except.error`;
  * `fnmatch.fnmatch` and `str.replace` are implemented with an explicit
    fuel argument so that they are structurally recursive and hence compute
    inside the kernel; each step consumes at least one character, so the
    fuel chosen at the wrappers (total input length + 1) is always enough.
-/

/-- Python `s.startswith(p)` on strings. -/
def pyStartsWith (s p : String) : Bool :=
  p.data.isPrefixOf s.data

/-- Python `s.endswith(p)` on strings. -/
def pyEndsWith (s p : String) : Bool :=
  p.data.isSuffixOf s.data

/-- Python `str.strip()` whitespace set (the characters relevant to text
files: space, tab, carriage return, newline, form feed, vertical tab). -/
def pyIsSpace (c : Char) : Bool :=
  c = ' ' || c = '\t' || c = '\n' || c = '\x0d' || c = '\x0c' || c = '\x0b'

/-- Python `s.strip()`. -/
def pyStrip (s : String) : String :=
  ⟨((s.data.dropWhile pyIsSpace).reverse.dropWhile pyIsSpace).reverse⟩

/-- `sep.join(parts)` on character lists. -/
def joinSep (sep : List Char) : List (List Char) → List Char
  | [] => []
  | [x] => x
  | x :: y :: rest => x ++ sep ++ joinSep sep (y :: rest)

/-- Python `sep.join(parts)` on strings. -/
def pyJoin (sep : String) (parts : List String) : String :=
  ⟨joinSep sep.data (parts.map String.data)⟩

/-- `s * n` for strings (used for `"    " * indent`). -/
def strRepeat (s : String) : Nat → String
  | 0 => ""
  | n + 1 => s ++ strRepeat s n

/-- Render an absolute path (`str(file_path)` for a `pathlib.Path`). -/
def pathStr (p : List String) : String :=
  "/" ++ pyJoin "/" p

/-- Render a path relative to a directory (`str(relative_path)`); for the
empty remainder `pathlib` renders `"."`. -/
def relPathStr (p : List String) : String :=
  if p.isEmpty then "." else pyJoin "/" p

/-! ## IgnoreMatcher: `fnmatch`, `is_ignored`, `load_gitignore_patterns` -/

/-- One character against the body of a glob bracket expression `[...]`
(negation already handled by the caller): a `a-b` triple is a codepoint
range, any other character is a literal member. -/
def matchClass : List Char → Char → Bool
  | a :: '-' :: b :: rest, c =>
    (a ≤ c && c ≤ b) || matchClass rest c
  | a :: rest, c => a = c || matchClass rest c
  | [], _ => false

/-- Split a list at the first `']'`: returns the part before it and the part
after it, or `none` when there is no `']'`. -/
def splitAtRBracket : List Char → Option (List Char × List Char)
  | [] => none
  | c :: cs =>
    if c = ']' then some ([], cs)
    else match splitAtRBracket cs with
      | some (pre, rest) => some (c :: pre, rest)
      | none => none

/-- Scan the body of a bracket expression, starting just after `[` and an
optional `!`.  As in `fnmatch.translate`, a `]` in the first position is a
literal member of the class; the result is the class body and the pattern
remainder, or `none` when the bracket never closes (then `[` is literal). -/
def scanClassBody : List Char → Option (List Char × List Char)
  | ']' :: cs =>
    (match splitAtRBracket cs with
      | some (pre, rest) => some (']' :: pre, rest)
      | none => none)
  | l => splitAtRBracket l

/-- `fnmatch.fnmatchcase` on character lists (`os.path.normcase` is the
identity on POSIX): `*` matches any sequence, `?` any single character,
`[...]`/`[!...]` a character class, anything else itself; the whole name
must be consumed.  `fuel` only forces structural recursion: every recursive
call consumes at least one character of pattern-plus-name, so any fuel
larger than their combined length gives the true fnmatch result. -/
def fnmatchFuel : Nat → List Char → List Char → Bool
  | 0, _, _ => false
  | _ + 1, [], name => name.isEmpty
  | fuel + 1, '*' :: ps, name =>
    fnmatchFuel fuel ps name ||
      (match name with
        | [] => false
        | _ :: cs => fnmatchFuel fuel ('*' :: ps) cs)
  | fuel + 1, '?' :: ps, name =>
    (match name with
      | [] => false
      | _ :: cs => fnmatchFuel fuel ps cs)
  | fuel + 1, '[' :: ps, name =>
    (let neg := ps.head? = some '!'
     let body := if neg then ps.tail else ps
     match scanClassBody body with
      | some (stuff, rest) =>
        (match name with
          | [] => false
          | c :: cs =>
            (if neg then !(matchClass stuff c) else matchClass stuff c) &&
              fnmatchFuel fuel rest cs)
      | none =>
        (match name with
          | [] => false
          | c :: cs => c = '[' && fnmatchFuel fuel ps cs))
  | fuel + 1, p :: ps, name =>
    (match name with
      | [] => false
      | c :: cs => p = c && fnmatchFuel fuel ps cs)

/-- `fnmatch.fnmatch(name, pattern)`. -/
def fnmatch (name pattern : String) : Bool :=
  fnmatchFuel (pattern.data.length + name.data.length + 1) pattern.data name.data

/-- One `.gitignore` rule set: the path of the `.gitignore` file together
with its (cleaned) pattern lines, i.e. one entry of the `patterns` dict. -/
abbrev RuleSet := List String × List String

/-- `is_ignored(path, patterns)`: scan the rule sets; a rule set whose
directory is not an ancestor of `path` is skipped (`relative_to` raises);
otherwise each pattern is tried against the relative path, and a pattern
with a trailing `/` is also tried with `*` appended.  True as soon as one
pattern matches. -/
def is_ignored (path : List String) : List RuleSet → Bool
  | [] => false
  | (gitignore_path, patterns_list) :: restSets =>
    (let gitignore_dir := gitignore_path.dropLast
     if gitignore_dir.isPrefixOf path then
       (let relative_path := path.drop gitignore_dir.length
        patterns_list.any fun pattern =>
          fnmatch (relPathStr relative_path) pattern ||
            (pyEndsWith pattern "/" &&
              fnmatch (relPathStr relative_path) (pattern ++ "*"))) ||
         is_ignored path restSets
     else is_ignored path restSets)

/-- Spec-side reading of one rule set (§4.1 of the spec): the path matches a
pattern of the rule set, each pattern interpreted relative to the directory
that declared it, a trailing path separator normalised into a wildcard. -/
def matchesRuleSet (path : List String) (rs : RuleSet) : Bool :=
  rs.1.dropLast.isPrefixOf path &&
    rs.2.any fun pattern =>
      fnmatch (relPathStr (path.drop rs.1.dropLast.length)) pattern ||
        (pyEndsWith pattern "/" &&
          fnmatch (relPathStr (path.drop rs.1.dropLast.length)) (pattern ++ "*"))

/-- One `os.walk` entry: the visited directory's path and its files as
`(name, content)` pairs, in listing order. -/
abbrev WalkEntry := List String × List (String × String)

/-- Split a character list at every `'\n'` (the separator is dropped; the
iteration over a Python text file yields exactly these chunks, each with the
`'\n'` still attached, but the subsequent `strip()` removes it anyway). -/
def splitNlAux : List Char → List Char → List (List Char)
  | [], acc => [acc.reverse]
  | c :: cs, acc =>
    if c = '\n' then acc.reverse :: splitNlAux cs []
    else splitNlAux cs (c :: acc)

/-- The cleaning loop of `load_gitignore_patterns`: strip each line, keep
the non-empty ones that do not start with `#`. -/
def parseGitignoreLines (content : String) : List String :=
  (((splitNlAux content.data []).map fun l => pyStrip ⟨l⟩).filter fun line =>
    line ≠ "" && !(pyStartsWith line "#"))

/-- `load_gitignore_patterns(base_path)`: walk the whole tree (this walk is
not pruned) and, for each directory owning a `.gitignore`, map that file's
path to its cleaned pattern lines. -/
def load_gitignore_patterns (walk : List WalkEntry) : List RuleSet :=
  walk.filterMap fun entry =>
    match entry.2.find? (fun f => f.1 = ".gitignore") with
    | some f => some (entry.1 ++ [".gitignore"], parseGitignoreLines f.2)
    | none => none

/-! ## TokenEstimator: `count_tokens` -/

/-- A regex `\w` character (alphanumeric or underscore; the inputs of
interest are ASCII). -/
def isWordChar (c : Char) : Bool :=
  c.isAlphanum || c = '_'

/-- Scan for `\w+` matches: `inRun` records whether the previous character
was a word character (i.e. whether we are inside a match). -/
def countTokensAux : List Char → Bool → Nat
  | [], _ => 0
  | c :: cs, inRun =>
    if isWordChar c then
      (if inRun then 0 else 1) + countTokensAux cs true
    else countTokensAux cs false

/-- `count_tokens(text)`: `len(re.findall(r"\w+", text))`. -/
def count_tokens (text : String) : Nat :=
  countTokensAux text.data false

/-- Spec-side token count: the number of non-overlapping maximal runs of
word characters, counted as the positions where a word character is not
preceded by one (pairing every character's word-flag with its
predecessor's, the first having no predecessor). -/
def specTokenRuns (text : String) : Nat :=
  ((false :: text.data.map isWordChar).zip (text.data.map isWordChar)).countP
    fun p => p.2 && !p.1

/-! ## Truncation to 500 lines -/

/-- Python text-file line iteration: split after every `'\n'`, each chunk
keeping its terminator; a final chunk without `'\n'` is still a line, and an
empty file yields no lines. -/
def pyLinesAux : List Char → List Char → List (List Char)
  | [], acc => if acc.isEmpty then [] else [acc.reverse]
  | c :: cs, acc =>
    if c = '\n' then (acc.reverse ++ ['\n']) :: pyLinesAux cs []
    else pyLinesAux cs (c :: acc)

/-- The lines of a file's content, terminators kept. -/
def pyLines (content : String) : List String :=
  (pyLinesAux content.data []).map fun l => ⟨l⟩

/-- `"".join(lines)`. -/
def strConcat (parts : List String) : String :=
  ⟨(parts.map String.data).flatten⟩

/-- The 500-line truncation applied to files without a `.py` suffix: keep
the lines with index `< 500` and concatenate them back. -/
def truncate500 (raw : String) : String :=
  strConcat ((pyLines raw).take 500)

/-! ## DeclarationSummarizer: `extract_function_defs_and_docstrings` -/

mutual
/-- The Python AST fragments that `process_node` distinguishes.
`functionDef` carries the names of `node.args.args` and the result of
`ast.get_docstring`; `classDef` carries the `ast.unparse`d (and stripped)
base expressions, its docstring and its full body (a docstring expression
statement inside the body is an `other` node, matching `ast.Expr`, for which
`process_node` emits nothing); `assign`/`annAssign` carry the `ast.unparse`d
(and stripped) targets and anno, `annAssign.hasValue` recording
whether `node.value` is present.  Every other statement kind is `other`. -/
inductive PyStmt where
  | functionDef (name : String) (args : List String) (docstring : Option String) : PyStmt
  | classDef (name : String) (bases : List String) (docstring : Option String)
      (body : PyStmtList) : PyStmt
  | assign (targets : List String) : PyStmt
  | annAssign (target : String) (anno : Option String) (hasValue : Bool) : PyStmt
  | other : PyStmt
inductive PyStmtList where
  | nil : PyStmtList
  | cons (head : PyStmt) (tail : PyStmtList) : PyStmtList
end

/-- `get_function_signature(node)`. -/
def get_function_signature (name : String) (args : List String) : String :=
  "def " ++ name ++ "(" ++ pyJoin ", " args ++ "):"

/-- The docstring line emitted under a definition, if any. -/
def docstringLines (indent : Nat) : Option String → List String
  | some doc => [strRepeat "    " (indent + 1) ++ "\"\"\"" ++ doc ++ "\"\"\""]
  | none => []

/-- The reconstructed line for an `Assign` node. -/
def assignText (targets : List String) : String :=
  pyJoin ", " targets ++ " = ..."

/-- The reconstructed line for an `AnnAssign` node. -/
def annAssignText (target : String) (anno : Option String) (hasValue : Bool) : String :=
  if hasValue then target ++ ": " ++ anno.getD "" ++ " = ..."
  else target ++ ": " ++ anno.getD ""

/-- The parenthesised base list of a class header (empty when no bases). -/
def classBasesText (bases : List String) : String :=
  if !bases.isEmpty then "(" ++ pyJoin ", " bases ++ ")" else ""

mutual
/-- `process_node(node, indent)`.  Lines are returned in the order the
Python code appends them to `result`: a function emits its signature and
optional docstring; a class emits its header, optional docstring, and then
its processed body one level deeper; assignments and annotated assignments
emit one reconstructed line indented one level deeper than `indent`;
anything else emits nothing. -/
def process_node : PyStmt → Nat → List String
  | .functionDef name args doc, indent =>
    (strRepeat "    " indent ++ get_function_signature name args) ::
      docstringLines indent doc
  | .classDef name bases doc body, indent =>
    ((strRepeat "    " indent ++ "class " ++ name ++ classBasesText bases ++ ":") ::
      docstringLines indent doc) ++ process_body body (indent + 1)
  | .assign targets, indent =>
    [strRepeat "    " (indent + 1) ++ assignText targets]
  | .annAssign target anno hasValue, indent =>
    [strRepeat "    " (indent + 1) ++ annAssignText target anno hasValue]
  | .other, _ => []
/-- The loop `for child in node.body: process_node(child, indent)` (and, at
the top level, `for node in tree.body: process_node(node)`). -/
def process_body : PyStmtList → Nat → List String
  | .nil, _ => []
  | .cons stmt rest, indent => process_node stmt indent ++ process_body rest indent
end

/-- `extract_function_defs_and_docstrings(file_content)`, with `ast.parse`
passed in as `parse` (a `SyntaxError e` is the `.error` case): on success
the top-level statements are processed at indent 0; on parse failure
`result` holds the single marker line; either way the lines are joined
with newlines. -/
def extract_function_defs_and_docstrings
    (parse : String → Except String PyStmtList) (file_content : String) : String :=
  match parse file_content with
  | .ok treeBody => pyJoin "\n" (process_body treeBody 0)
  | .error e => pyJoin "\n" ["# SyntaxError while parsing: " ++ e]

/-! ## TreeBuilder: `build_tree_structure`, `format_tree` -/

/-- The nested-dict tree of `build_tree_structure`, as an insertion-ordered
sequence of entries: `file k rest` is an entry `k ↦ None` (a leaf),
`dir k sub rest` is an entry `k ↦ sub` (a nested dict). -/
inductive PyTree where
  | nil : PyTree
  | file (key : String) (rest : PyTree) : PyTree
  | dir (key : String) (sub : PyTree) (rest : PyTree) : PyTree
deriving DecidableEq, Repr

/-- `current.setdefault(part, {})` made explicit: look `key` up among the
entries; `some (some sub)` when it maps to a dict, `some none` when it maps
to `None`, `none` when absent. -/
def treeLookup (key : String) : PyTree → Option (Option PyTree)
  | .nil => none
  | .file k rest => if k = key then some none else treeLookup key rest
  | .dir k sub rest => if k = key then some (some sub) else treeLookup key rest

/-- `current[key] = None`: overwrite the entry in place (keeping its
position), or append a fresh entry at the end. -/
def treeSetLeaf (key : String) : PyTree → PyTree
  | .nil => .file key .nil
  | .file k rest => if k = key then .file k rest else .file k (treeSetLeaf key rest)
  | .dir k sub rest =>
    if k = key then .file k rest else .dir k sub (treeSetLeaf key rest)

/-- `current[key] = sub` when `key` already maps to a dict: replace the
subtree in place. -/
def treeSetDir (key : String) (newSub : PyTree) : PyTree → PyTree
  | .nil => .nil
  | .file k rest => .file k (treeSetDir key newSub rest)
  | .dir k sub rest =>
    if k = key then .dir k newSub rest else .dir k sub (treeSetDir key newSub rest)

/-- Append a fresh `key ↦ sub` entry at the end (the `setdefault` miss). -/
def treeAppendDir (key : String) (sub : PyTree) : PyTree → PyTree
  | .nil => .dir key sub .nil
  | .file k rest => .file k (treeAppendDir key sub rest)
  | .dir k s rest => .dir k s (treeAppendDir key sub rest)

/-- The insertion loop of `build_tree_structure` for one file: walk
`parts[:-1]` with `setdefault(part, {})` and finally set `parts[-1]` to
`None`.  (When `setdefault` returns `None` — a file and a directory sharing
a path, impossible on a real filesystem — the Python code would raise; the
tree is left unchanged here.) -/
def insertParts : List String → PyTree → PyTree
  | [], tree => tree
  | [last], tree => treeSetLeaf last tree
  | part :: next :: rest, tree =>
    match treeLookup part tree with
    | some (some sub) => treeSetDir part (insertParts (next :: rest) sub) tree
    | some none => tree
    | none => treeAppendDir part (insertParts (next :: rest) .nil) tree

/-- The pruning `dirs[:] = [d for d in dirs if not d.startswith(".")]`
applied to a whole walk: a pruned (hidden) directory disappears together
with its entire subtree, so the pruned walk keeps exactly the entries with
no hidden segment below the base, in the original order. -/
def pruneWalk (base_path : List String) (walk : List WalkEntry) : List WalkEntry :=
  walk.filter fun entry =>
    (entry.1.drop base_path.length).all fun seg => !(pyStartsWith seg ".")

/-- The shared `skip_conditions` expression of `build_tree_structure` and
the content walk (lines 127–130 and 205–208 of `main.py`). -/
def skip_conditions (include_ignored : Bool) (patterns : List RuleSet)
    (ignore_files : List String) (file_path : List String) (file_name : String) : Bool :=
  (!include_ignored &&
      (pyStartsWith file_name "." || is_ignored file_path patterns)) ||
    ignore_files.contains file_name

/-- `build_tree_structure(base_path, patterns, include_ignored,
ignore_files)`: start from `{base_path_name: {}}`, walk (pruned), and for
every non-skipped file insert `[base_path_name] + relative_path.parts`. -/
def build_tree_structure (base_path : List String) (walk : List WalkEntry)
    (patterns : List RuleSet) (include_ignored : Bool)
    (ignore_files : List String) : PyTree :=
  let base_path_name := base_path.getLastD ""
  (pruneWalk base_path walk).foldl
    (fun tree entry =>
      entry.2.foldl
        (fun tree f =>
          let file_path := entry.1 ++ [f.1]
          if skip_conditions include_ignored patterns ignore_files file_path f.1 then
            tree
          else
            insertParts (base_path_name :: file_path.drop base_path.length) tree)
        tree)
    (.dir base_path_name .nil .nil)

/-- `format_tree(tree, indent)`: one line per entry, directories suffixed
with `/` and recursed into one level deeper. -/
def format_tree : PyTree → Nat → List String
  | .nil, _ => []
  | .file k rest, indent =>
    (strRepeat "│   " indent ++ "├── " ++ k) :: format_tree rest indent
  | .dir k sub rest, indent =>
    (strRepeat "│   " indent ++ "├── " ++ k ++ "/") ::
      (format_tree sub (indent + 1) ++ format_tree rest indent)

/-- The keys of the tree that map to `None`, i.e. the files inserted as
leaves (recursively). -/
def leafKeys : PyTree → List String
  | .nil => []
  | .file k rest => k :: leafKeys rest
  | .dir _ sub rest => leafKeys sub ++ leafKeys rest

/-! ## ContentAssembler: the file-content walk -/

/-- The mutable walk state of `dump_repository_structure_and_files`:
`main_gitignore_found` and `related_repo_roots`. -/
structure WalkState where
  main_gitignore_found : Bool
  related_repo_roots : List (List String)
deriving DecidableEq, Repr

/-- Whether a directory entry declares a rule set (`".gitignore" in files`). -/
def hasGitignore (entry : WalkEntry) : Bool :=
  entry.2.any fun f => f.1 = ".gitignore"

/-- The two `if` statements at the top of each walk iteration: append the
directory to `related_repo_roots` if a main `.gitignore` was already found
and this directory declares one; then record that a main `.gitignore`
exists. -/
def stepRoots (st : WalkState) (entry : WalkEntry) : WalkState :=
  let roots :=
    if st.main_gitignore_found && hasGitignore entry then
      st.related_repo_roots ++ [entry.1]
    else st.related_repo_roots
  { main_gitignore_found := st.main_gitignore_found || hasGitignore entry,
    related_repo_roots := roots }

/-- The walk state after a sequence of directory entries. -/
def foldState : List WalkEntry → WalkState → WalkState
  | [], st => st
  | entry :: rest, st => foldState rest (stepRoots st entry)

/-- `Path(file_path).suffix` of a file name: from the last `.` on, unless
that dot is the first or the last character of the name. -/
def pathSuffix (name : String) : String :=
  match name.data.reverse.findIdx? (fun c => c = '.') with
  | some j =>
    let i := name.data.length - 1 - j
    if 0 < i && i < name.data.length - 1 then ⟨name.data.drop i⟩ else ""
  | none => ""

/-- The per-file content policy of the walk (lines 220–231 of `main.py`):
a `.py` file in a related repo is summarized; a non-`.py` file is truncated
to its first 500 lines; any other (`.py`, primary) file is read whole. -/
def filePolicyContent (parse : String → Except String PyStmtList)
    (file_name : String) (in_related_repo : Bool) (raw : String) : String :=
  if pathSuffix file_name = ".py" && in_related_repo then
    extract_function_defs_and_docstrings parse raw
  else if pathSuffix file_name ≠ ".py" then
    truncate500 raw
  else raw

/-- One surviving file of the content walk: its path, its
`in_related_repo` classification, and the content chosen for it. -/
structure FileRec where
  path : List String
  in_related_repo : Bool
  content : String
deriving DecidableEq, Repr

/-- The inner `for file_name in files:` loop of the content walk for one
directory entry, given the state already updated by `stepRoots`. -/
def entryRecords (parse : String → Except String PyStmtList)
    (patterns : List RuleSet) (include_ignored no_nest : Bool)
    (ignore_files : List String) (st : WalkState) (entry : WalkEntry) :
    List FileRec :=
  let st' := stepRoots st entry
  entry.2.filterMap fun f =>
    let file_path := entry.1 ++ [f.1]
    if skip_conditions include_ignored patterns ignore_files file_path f.1 then
      none
    else
      let in_related_repo :=
        st'.related_repo_roots.any fun root => root.isPrefixOf file_path
      if no_nest && in_related_repo then none
      else some ⟨file_path, in_related_repo, filePolicyContent parse f.1 in_related_repo f.2⟩

/-- The content walk over a (pruned) sequence of directory entries,
threading the `main_gitignore_found` / `related_repo_roots` state. -/
def walkFileRecords (parse : String → Except String PyStmtList)
    (patterns : List RuleSet) (include_ignored no_nest : Bool)
    (ignore_files : List String) :
    List WalkEntry → WalkState → List FileRec
  | [], _ => []
  | entry :: rest, st =>
    entryRecords parse patterns include_ignored no_nest ignore_files st entry ++
      walkFileRecords parse patterns include_ignored no_nest ignore_files rest
        (stepRoots st entry)

/-- `Path.resolve()` on an absolute path, without symlinks: `..` removes the
previous segment (staying at the root when there is none), `.` disappears. -/
def resolvePath (p : List String) : List String :=
  p.foldl
    (fun acc seg =>
      if seg = ".." then acc.dropLast
      else if seg = "." then acc
      else acc ++ [seg])
    []

/-- Look a (resolved, absolute) path up in the walk as a file: its parent
must be a visited directory listing its final segment as a file. -/
def findWalkFile (walk : List WalkEntry) (p : List String) : Option String :=
  match walk.find? (fun entry => entry.1 = p.dropLast) with
  | some entry =>
    (match entry.2.find? (fun f => f.1 = p.getLastD "") with
      | some f => some f.2
      | none => none)
  | none => none

/-- `Path.exists()` for a (resolved, absolute) path: a visited directory or
a file inside one. -/
def pathExists (walk : List WalkEntry) (p : List String) : Bool :=
  walk.any (fun entry => entry.1 = p) || (findWalkFile walk p).isSome

/-- The explicit allow-list branch (lines 180–190 of `main.py`): for each
filename, `ValueError` when the resolved path escapes the resolved base,
`FileNotFoundError` when the path does not exist, `IsADirectoryError` when
`open` hits a directory; otherwise read the content, emit the block and add
the file's token count.  The first exception aborts the whole run. -/
def processFilenames (walk : List WalkEntry) (base_path : List String) :
    List (List String) → Except String (List String × Nat)
  | [] => .ok ([], 0)
  | filename :: rest =>
    let file_path := base_path ++ filename
    let resolved_path := resolvePath file_path
    if !((resolvePath base_path).isPrefixOf resolved_path) then
      .error ("File " ++ pyJoin "/" filename ++ " is outside the base path.")
    else if !(pathExists walk resolved_path) then
      .error ("Specified file '" ++ pyJoin "/" filename ++ "' does not exist.")
    else
      match findWalkFile walk resolved_path with
      | none => .error ("IsADirectoryError: " ++ pathStr file_path)
      | some content =>
        match processFilenames walk base_path rest with
        | .error e => .error e
        | .ok (blocks, total) =>
          .ok (("\nFile: " ++ pathStr file_path ++ "\n" ++ content) :: blocks,
            count_tokens content + total)

/-- Insert into a Python dict (association list keeping insertion order):
overwrite in place or append. -/
def dictSet (d : List (List String × String)) (key : List String) (v : String) :
    List (List String × String) :=
  match d with
  | [] => [(key, v)]
  | (k, w) :: rest => if k = key then (k, v) :: rest else (k, w) :: dictSet rest key v

/-- The `file_contents` dict of the content walk, in insertion order. -/
def walkFileContents (parse : String → Except String PyStmtList)
    (patterns : List RuleSet) (include_ignored no_nest : Bool)
    (ignore_files : List String) (entries : List WalkEntry) :
    List (List String × String) :=
  (walkFileRecords parse patterns include_ignored no_nest ignore_files entries
      ⟨false, []⟩).foldl
    (fun d rec => dictSet d rec.path rec.content) []

/-- The `PROMPT` literal of `main.py`. -/
def PROMPT : String :=
  "<context>\nYou are an expert programming AI assistant who prioritizes minimalist, efficient code. You plan before coding, write idiomatic solutions, and accept user preferences even if suboptimal.\n</context>\n\n<format_rules>\n- Keep responses brief but complete\n- You only output full code file, you never cut output\n</format_rules>\n\n<input>"

/-- `dump_repository_structure_and_files(base_path, no_nest,
include_ignored, filenames, ignore_files, include_tree)`.  The filesystem
under `base_path` is supplied as its unpruned `os.walk` sequence; the
result is the joined output text together with the total token count that
the function prints (an uncaught exception is `.error`).  A non-empty
`filenames` list (Python truthiness: `None` and `[]` both fall through to
the walk) selects the allow-list branch. -/
def dump_repository_structure_and_files
    (parse : String → Except String PyStmtList)
    (base_path : List String) (walk : List WalkEntry)
    (no_nest include_ignored : Bool)
    (filenames : Option (List (List String)))
    (ignore_files : List String) (include_tree : Bool) :
    Except String (String × Nat) :=
  let patterns := load_gitignore_patterns walk
  let header :=
    if include_tree then
      [PROMPT, "\n<repository_structure>"] ++
        format_tree
          (build_tree_structure base_path walk patterns include_ignored ignore_files)
          0 ++
        ["\n</repository_structure>\n\n<files_content>"]
    else [PROMPT, "\n<files_content>"]
  let finish := fun (blocks : List String) (total : Nat) =>
    (pyJoin "\n"
        (header ++ blocks ++ ["\n</files_content>", "\n</input>", "\n<task>\n\n</task>"]),
      total)
  match filenames with
  | some (f :: fs) =>
    (match processFilenames walk base_path (f :: fs) with
      | .error e => .error e
      | .ok (blocks, total) => .ok (finish blocks total))
  | _ =>
    let file_contents :=
      walkFileContents parse patterns include_ignored no_nest ignore_files
        (pruneWalk base_path walk)
    let blocks := file_contents.map fun fc => "\nFile: " ++ pathStr fc.1 ++ "\n" ++ fc.2
    let total := file_contents.foldl (fun acc fc => acc + count_tokens fc.2) 0
    .ok (finish blocks total)

/-! ## `main`: task insertion (`str.replace`) -/

/-- Python `str.replace` for a non-empty pattern, one left-to-right pass
over non-overlapping occurrences.  `fuel` only forces structural recursion:
each step consumes at least one character of `s`, so any fuel above
`s.length` gives the true result. -/
def replaceFuel (pat rep : List Char) : Nat → List Char → List Char
  | 0, s => s
  | _ + 1, [] => []
  | fuel + 1, c :: cs =>
    if pat.isPrefixOf (c :: cs) then
      rep ++ replaceFuel pat rep fuel (cs.drop (pat.length - 1))
    else c :: replaceFuel pat rep fuel cs

/-- Python `s.replace(pat, rep)` (for the empty pattern, `rep` is placed
around every character). -/
def pyReplace (s pat rep : String) : String :=
  match pat.data with
  | [] => ⟨rep.data ++ s.data.flatMap (fun c => c :: rep.data)⟩
  | p :: ps => ⟨replaceFuel (p :: ps) rep.data (s.data.length + 1) s.data⟩

/-- `safe_request = args.users_request.replace("</task>", "")`. -/
def safe_request (users_request : String) : String :=
  pyReplace users_request "</task>" ""

/-- The task insertion of `main` (lines 313–317): replace the empty task
block of the dumped context by one containing the sanitised request. -/
def insert_task (context users_request : String) : String :=
  pyReplace context "<task>\n\n</task>"
    ("<task>\n" ++ safe_request users_request ++ "\n</task>")

/-! ## Helper lemmas -/

theorem str_data_append (a b : String) : (a ++ b).data = a.data ++ b.data := by
  cases a; cases b; rfl

theorem str_mk_data (s : String) : String.mk s.data = s := by
  cases s; rfl

theorem pyJoin_singleton (sep : String) (x : String) : pyJoin sep [x] = x := by
  cases x; rfl

/-- `is_ignored` is exactly "some rule set of the given collection matches". -/
theorem is_ignored_eq_any (path : List String) (pats : List RuleSet) :
    is_ignored path pats = pats.any (matchesRuleSet path) := by
  induction pats with
  | nil => rfl
  | cons rs rest ih =>
    obtain ⟨gp, pl⟩ := rs
    by_cases h : gp.dropLast.isPrefixOf path
    · simp only [is_ignored, h, if_true, List.any_cons, ih, matchesRuleSet, h,
        Bool.true_and]
    · simp only [is_ignored, h, if_false, List.any_cons, ih, matchesRuleSet]
      simp [h]

/-- C1: exclusion tracks the discovered rule sets.  `is_ignored` is called
with the rule sets known at testing time (`load_gitignore_patterns` runs
before the walk, so every rule set is discovered before any path is
tested): a path matching a pattern of some discovered rule set is excluded,
and a path none of whose discovered rule sets match — in particular a path
tested when no matching rule set has been discovered — is not. -/
theorem c1_exclusion_tracks_discovered_rule_sets (path : List String)
    (discovered : List RuleSet) :
    (∀ rs ∈ discovered, matchesRuleSet path rs = true →
        is_ignored path discovered = true) ∧
    ((∀ rs ∈ discovered, matchesRuleSet path rs = false) →
        is_ignored path discovered = false) := by
  constructor
  · intro rs hmem hmatch
    rw [is_ignored_eq_any]
    exact List.any_eq_true.mpr ⟨rs, hmem, hmatch⟩
  · intro hall
    rw [is_ignored_eq_any]
    exact List.any_eq_false.mpr fun rs hmem => by simp [hall rs hmem]

theorem c1_witness :
    is_ignored ["r", "x.log"] [(["r", ".gitignore"], ["*.log"])] = true ∧
    is_ignored ["r", "x.log"] [(["s", ".gitignore"], ["*.log"])] = false :=
  ⟨(c1_exclusion_tracks_discovered_rule_sets ["r", "x.log"]
        [(["r", ".gitignore"], ["*.log"])]).1
      (["r", ".gitignore"], ["*.log"]) (by decide) (by decide),
    (c1_exclusion_tracks_discovered_rule_sets ["r", "x.log"]
        [(["s", ".gitignore"], ["*.log"])]).2 (by decide)⟩

/-- C4: `extract_function_defs_and_docstrings` never lets a parse failure
escape: whenever `ast.parse` fails (the `.error` case of the modelled
parser), the function returns the marker line embedding the failure reason,
and that marker is a single line whenever the reason itself has no newline.
(In the embedding every exception crossing a function boundary is an
`Except.error`; the summarizer's result type `String` shows that no failure
propagates.) -/
theorem c4_parse_failure_marker (parse : String → Except String PyStmtList)
    (s e : String) (h : parse s = .error e) :
    extract_function_defs_and_docstrings parse s =
      "# SyntaxError while parsing: " ++ e ∧
    ('\n' ∉ e.data →
      '\n' ∉ (extract_function_defs_and_docstrings parse s).data) := by
  have hx : extract_function_defs_and_docstrings parse s =
      "# SyntaxError while parsing: " ++ e := by
    unfold extract_function_defs_and_docstrings
    rw [h]
    exact pyJoin_singleton _ _
  refine ⟨hx, fun hnl hmem => ?_⟩
  rw [hx, str_data_append] at hmem
  rcases List.mem_append.mp hmem with h1 | h2
  · exact absurd h1 (by decide)
  · exact hnl h2

theorem c4_witness :
    extract_function_defs_and_docstrings (fun _ => .error "invalid syntax") "def (" =
      "# SyntaxError while parsing: " ++ "invalid syntax" ∧
    '\n' ∉ (extract_function_defs_and_docstrings
        (fun _ => .error "invalid syntax") "def (").data :=
  have h := c4_parse_failure_marker (fun _ => .error "invalid syntax") "def ("
    "invalid syntax" rfl
  ⟨h.1, h.2 (by decide)⟩

/-- C6: the task-sanitisation slip.  `replace("</task>", "")` is a single
left-to-right pass, so removing the occurrences of `"</task>"` can create a
new one: for the request `"</ta</task>sk>"` the sanitised text is exactly
`"</task>"`, and the task block of the final document then contains a
nested closing tag — the code's single-pass strip does not establish the
guarantee. -/
theorem c6_sanitization_counterexample :
    safe_request "</ta</task>sk>" = "</task>" ∧
    insert_task "<task>\n\n</task>" "</ta</task>sk>" =
      "<task>\n</task>\n</task>" := by
  exact ⟨by decide, by decide⟩

/-- C10: `process_node` emits (annotated) assignments at every nesting
level it visits, the module top level included, each rendered one
indentation level deeper than its nesting depth — so a top-level assignment
is indented one level while a function or class at the same depth starts
its first line unindented. -/
theorem c10_assignments_emitted_one_level_deeper (indent : Nat)
    (targets : List String) (target : String) (anno : Option String)
    (hasValue : Bool) (name : String) (args : List String)
    (bases : List String) (doc : Option String) (body : PyStmtList)
    (rest : PyStmtList) :
    process_node (.assign targets) indent =
      [strRepeat "    " (indent + 1) ++ assignText targets] ∧
    process_node (.annAssign target anno hasValue) indent =
      [strRepeat "    " (indent + 1) ++ annAssignText target anno hasValue] ∧
    process_body (.cons (.assign targets) rest) 0 =
      (strRepeat "    " 1 ++ assignText targets) :: process_body rest 0 ∧
    (process_node (.functionDef name args doc) indent).head? =
      some (strRepeat "    " indent ++ get_function_signature name args) ∧
    (process_body (.cons (.functionDef name args doc) rest) 0).head? =
      some (strRepeat "    " 0 ++ get_function_signature name args) ∧
    (process_node (.classDef name bases doc body) indent).head? =
      some (strRepeat "    " indent ++ "class " ++ name ++ classBasesText bases ++ ":") := by
  refine ⟨rfl, rfl, rfl, ?_, ?_, ?_⟩
  · simp [process_node]
  · simp [process_body, process_node]
  · simp [process_node]

/-- The scanner counts exactly the maximal word-character runs: position by
position, it adds one precisely where a word character is not preceded by
one. -/
theorem countTokensAux_eq_countP (l : List Char) (b : Bool) :
    countTokensAux l b =
      ((b :: l.map isWordChar).zip (l.map isWordChar)).countP
        (fun p => p.2 && !p.1) := by
  induction l generalizing b with
  | nil => rfl
  | cons c cs ih =>
    simp only [countTokensAux, List.map_cons, List.zip_cons_cons, List.countP_cons,
      ← ih (isWordChar c)]
    by_cases hw : isWordChar c = true
    · simp only [hw, if_true, Bool.true_and]
      cases b <;> simp [Nat.add_comm]
    · have hw' : isWordChar c = false := Bool.eq_false_iff.mpr hw
      simp [hw']

/-- `count_tokens` equals the spec-side maximal-run count. -/
theorem count_tokens_eq_specTokenRuns (text : String) :
    count_tokens text = specTokenRuns text :=
  countTokensAux_eq_countP text.data false

theorem foldl_add_eq_sum {α : Type} (f : α → Nat) (l : List α) (n : Nat) :
    l.foldl (fun acc x => acc + f x) n = n + (l.map f).sum := by
  induction l generalizing n with
  | nil => simp
  | cons x xs ih => simp [ih]; omega

/-- C5 (amended): the token count reported by the walk branch is the sum,
over the entries of the `file_contents` dict, of the number of maximal
word-character runs of that file's chosen content — the estimator is
invoked once per file and the results are summed; the preamble, the tree
rendering and the `File:` labels of the assembled document are not
counted. -/
theorem c5_reported_count_sums_per_file_runs
    (parse : String → Except String PyStmtList) (base_path : List String)
    (walk : List WalkEntry) (no_nest include_ignored : Bool)
    (ignore_files : List String) (include_tree : Bool) :
    (dump_repository_structure_and_files parse base_path walk no_nest
        include_ignored none ignore_files include_tree).toOption.map Prod.snd =
      some (((walkFileContents parse (load_gitignore_patterns walk)
          include_ignored no_nest ignore_files (pruneWalk base_path walk)).map
        fun fc => specTokenRuns fc.2).sum) := by
  have hsum : ∀ (l : List (List String × String)),
      l.foldl (fun acc fc => acc + count_tokens fc.2) 0 =
        (l.map fun fc => specTokenRuns fc.2).sum := by
    intro l
    rw [foldl_add_eq_sum (fun fc => count_tokens fc.2) l 0, Nat.zero_add]
    exact congrArg List.sum
      (List.map_congr_left fun fc _ => count_tokens_eq_specTokenRuns fc.2)
  simp only [dump_repository_structure_and_files, Except.toOption, Option.map_some']
  exact congrArg some (hsum _)

set_option maxRecDepth 100000 in
/-- C5 (counterexample): the reported count is not the run count of the
full assembled output text — on a one-file repository whose single file is
empty, the reported total is 0 while the assembled document (preamble, tree
rendering, labels) has many word runs. -/
theorem c5_counterexample :
    ((dump_repository_structure_and_files (fun _ => .error "") ["r"]
        [(["r"], [("a.txt", "")])] false false none [] true).toOption.map
      fun p => decide (p.2 = count_tokens p.1)) = some false := by
  decide

/-- Joining the produced lines restores the input (with the accumulator
prepended). -/
theorem pyLinesAux_flatten (l : List Char) :
    ∀ acc, (pyLinesAux l acc).flatten = acc.reverse ++ l := by
  induction l with
  | nil =>
    intro acc
    by_cases h : acc.isEmpty
    · simp [pyLinesAux, h, List.isEmpty_iff.mp h]
    · simp [pyLinesAux, h]
  | cons c cs ih =>
    intro acc
    by_cases h : c = '\n'
    · subst h
      simp [pyLinesAux, ih []]
    · simp [pyLinesAux, h, ih (c :: acc)]

/-- `"".join(pyLines s) = s`. -/
theorem strConcat_pyLines (s : String) : strConcat (pyLines s) = s := by
  have : ((pyLines s).map String.data).flatten = s.data := by
    simp only [pyLines, List.map_map]
    have : (String.data ∘ fun l => (⟨l⟩ : String)) = id := rfl
    rw [this, List.map_id, pyLinesAux_flatten s.data []]
    rfl
  unfold strConcat
  rw [this, str_mk_data]

/-- A chunk that is a whole line: some body without `'\n'`, then `'\n'`. -/
def chunkClosed (c : List Char) : Prop :=
  ∃ body, c = body ++ ['\n'] ∧ '\n' ∉ body

/-- A chunk that is a non-empty final fragment without `'\n'`. -/
def chunkOpen (c : List Char) : Prop :=
  c ≠ [] ∧ '\n' ∉ c

/-- A well-formed line list: every chunk is a whole line, except that the
last may be an open fragment. -/
def chunksOk : List (List Char) → Prop
  | [] => True
  | c :: rest => (chunkClosed c ∧ chunksOk rest) ∨ (rest = [] ∧ chunkOpen c)

theorem pyLinesAux_chunksOk (l : List Char) :
    ∀ acc, '\n' ∉ acc → chunksOk (pyLinesAux l acc) := by
  induction l with
  | nil =>
    intro acc hacc
    by_cases h : acc.isEmpty
    · simp [pyLinesAux, h, chunksOk]
    · simp only [pyLinesAux, h, if_false]
      refine Or.inr ⟨rfl, fun hrev => ?_, by simpa using hacc⟩
      exact h (by simp [List.isEmpty_iff, ← List.reverse_eq_nil_iff, hrev])
  | cons c cs ih =>
    intro acc hacc
    by_cases h : c = '\n'
    · subst h
      simp only [pyLinesAux, if_pos rfl]
      exact Or.inl ⟨⟨acc.reverse, rfl, by simpa using hacc⟩, ih [] (by simp)⟩
    · simp only [pyLinesAux, if_neg h]
      refine ih (c :: acc) fun hm => ?_
      rcases List.mem_cons.mp hm with h1 | h2
      · exact h h1.symm
      · exact hacc h2

theorem chunksOk_take (L : List (List Char)) :
    ∀ k, chunksOk L → chunksOk (L.take k) := by
  induction L with
  | nil =>
    intro k _
    rw [List.take_nil]
    trivial
  | cons c rest ih =>
    intro k hk
    cases k with
    | zero => exact trivial
    | succ k =>
      rw [List.take_succ_cons]
      rcases hk with ⟨hc, hrest⟩ | ⟨hnil, hopen⟩
      · exact Or.inl ⟨hc, ih k hrest⟩
      · subst hnil
        rw [List.take_nil]
        exact Or.inr ⟨rfl, hopen⟩

/-- Scanning a newline-free body just accumulates it. -/
theorem pyLinesAux_no_newline :
    ∀ (body : List Char), '\n' ∉ body →
      ∀ (rest acc : List Char),
        pyLinesAux (body ++ rest) acc = pyLinesAux rest (body.reverse ++ acc) := by
  intro body
  induction body with
  | nil => intro _ rest acc; simp
  | cons c bs ih =>
    intro hb rest acc
    have hc : c ≠ '\n' := fun h => hb (h ▸ List.mem_cons_self c bs)
    have hbs : '\n' ∉ bs := fun h => hb (List.mem_cons_of_mem _ h)
    calc pyLinesAux ((c :: bs) ++ rest) acc
        = pyLinesAux (bs ++ rest) (c :: acc) := by
          simp only [List.cons_append, pyLinesAux, if_neg hc, List.append_eq]
      _ = pyLinesAux rest (bs.reverse ++ (c :: acc)) := ih hbs rest (c :: acc)
      _ = pyLinesAux rest ((c :: bs).reverse ++ acc) := by
          simp [List.reverse_cons, List.append_assoc]

/-- Splitting the concatenation of a well-formed line list gives back the
list. -/
theorem pyLinesAux_flatten_of_chunksOk (L : List (List Char)) :
    chunksOk L → pyLinesAux L.flatten [] = L := by
  induction L with
  | nil => intro _; rfl
  | cons c rest ih =>
    intro hk
    rcases hk with ⟨⟨body, rfl, hnl⟩, hrest⟩ | ⟨hnil, hne, hnl⟩
    · rw [List.flatten_cons, List.append_assoc, List.singleton_append,
        pyLinesAux_no_newline body hnl _ []]
      simp [pyLinesAux, ih hrest]
    · subst hnil
      rw [List.flatten_cons, List.flatten_nil, List.append_nil]
      have hrw := pyLinesAux_no_newline c hnl [] []
      rw [List.append_nil] at hrw
      rw [hrw]
      simp [pyLinesAux, List.isEmpty_iff, hne]

theorem pyLines_map_data (s : String) :
    (pyLines s).map String.data = pyLinesAux s.data [] := by
  simp only [pyLines, List.map_map]
  have h : (String.data ∘ fun l => (⟨l⟩ : String)) = id := rfl
  rw [h, List.map_id]

/-- Truncation keeps exactly the first `min(n, 500)` lines. -/
theorem pyLines_truncate500 (raw : String) :
    pyLines (truncate500 raw) =
      (pyLines raw).take (min (pyLines raw).length 500) := by
  have hchunks : chunksOk ((pyLinesAux raw.data []).take 500) :=
    chunksOk_take _ 500 (pyLinesAux_chunksOk raw.data [] (by simp))
  have hdata : (truncate500 raw).data =
      ((pyLinesAux raw.data []).take 500).flatten := by
    simp only [truncate500, strConcat, List.map_take, pyLines_map_data]
  have hsplit : pyLinesAux (truncate500 raw).data [] =
      (pyLinesAux raw.data []).take 500 := by
    rw [hdata]
    exact pyLinesAux_flatten_of_chunksOk _ hchunks
  have hmin : (pyLines raw).take (min (pyLines raw).length 500) =
      (pyLines raw).take 500 := by
    by_cases h : (pyLines raw).length ≤ 500
    · rw [min_eq_left h, List.take_length, List.take_of_length_le h]
    · rw [min_eq_right (le_of_not_le h)]
  rw [hmin]
  simp only [pyLines, hsplit, List.map_take]

/-- A file of at most 500 lines is passed through unchanged. -/
theorem truncate500_short (raw : String) (h : (pyLines raw).length ≤ 500) :
    truncate500 raw = raw := by
  unfold truncate500
  rw [List.take_of_length_le h, strConcat_pyLines]

/-- C3: the per-file content policy of the walk.  A `.py` file in a related
tree gets the summarizer's output; a file without the `.py` suffix gets
exactly the first `min(n, 500)` of its `n` raw lines — and is unchanged
when `n ≤ 500`; a primary-tree `.py` file gets its raw content
unmodified. -/
theorem c3_per_file_content_policy (parse : String → Except String PyStmtList)
    (file_name : String) (in_related_repo : Bool) (raw : String) :
    (pathSuffix file_name = ".py" → in_related_repo = true →
      filePolicyContent parse file_name in_related_repo raw =
        extract_function_defs_and_docstrings parse raw) ∧
    (pathSuffix file_name ≠ ".py" →
      pyLines (filePolicyContent parse file_name in_related_repo raw) =
          (pyLines raw).take (min (pyLines raw).length 500) ∧
        ((pyLines raw).length ≤ 500 →
          filePolicyContent parse file_name in_related_repo raw = raw)) ∧
    (pathSuffix file_name = ".py" → in_related_repo = false →
      filePolicyContent parse file_name in_related_repo raw = raw) := by
  refine ⟨fun hpy hrel => ?_, fun hnotpy => ?_, fun hpy hrel => ?_⟩
  · simp [filePolicyContent, hpy, hrel]
  · have hpol : filePolicyContent parse file_name in_related_repo raw =
        truncate500 raw := by
      simp [filePolicyContent, hnotpy]
    exact ⟨by rw [hpol]; exact pyLines_truncate500 raw,
      fun hlen => by rw [hpol]; exact truncate500_short raw hlen⟩
  · simp [filePolicyContent, hpy, hrel]

theorem c3_witness :
    filePolicyContent (fun _ => .error "e") "a.py" true "x = 1\n" =
        extract_function_defs_and_docstrings (fun _ => .error "e") "x = 1\n" ∧
    filePolicyContent (fun _ => .error "e") "a.txt" false "p\nq" = "p\nq" ∧
    filePolicyContent (fun _ => .error "e") "a.py" false "x = 1\n" = "x = 1\n" :=
  ⟨(c3_per_file_content_policy (fun _ => .error "e") "a.py" true "x = 1\n").1
      (by decide) rfl,
    ((c3_per_file_content_policy (fun _ => .error "e") "a.txt" false "p\nq").2.1
        (by decide)).2 (by decide),
    (c3_per_file_content_policy (fun _ => .error "e") "a.py" false "x = 1\n").2.2
      (by decide) rfl⟩

/-! ## C2: the related-tree classification -/

/-- The rule-set-declaring directories of a walk, in visit order. -/
def giDirs (entries : List WalkEntry) : List (List String) :=
  (entries.filter hasGitignore).map fun e => e.1

/-- Spec-side classification: the file lies under some directory that
declares a rule set and was visited after the first rule-set-declaring
directory of the walk (i.e. under one of the rule-set directories other
than the first). -/
def specRelatedRoot (entries : List WalkEntry) (path : List String) : Bool :=
  (giDirs entries).tail.any fun root => root.isPrefixOf path

/-- The top-down guarantee of `os.walk`: a directory listed later in the
walk is never an ancestor of a file of an earlier-listed directory (on a
real filesystem, every ancestor of a file is visited before the directory
holding the file). -/
def noLaterAncestor (e e' : WalkEntry) : Prop :=
  ∀ f ∈ e.2, ¬ (e'.1.isPrefixOf (e.1 ++ [f.1]) = true)

theorem giDirs_append (a b : List WalkEntry) :
    giDirs (a ++ b) = giDirs a ++ giDirs b := by
  simp [giDirs, List.filter_append]

theorem foldState_append (a b : List WalkEntry) (st : WalkState) :
    foldState (a ++ b) st = foldState b (foldState a st) := by
  induction a generalizing st with
  | nil => rfl
  | cons e rest ih => simp [foldState, ih]

theorem foldState_main_found (entries : List WalkEntry) (rs : List (List String)) :
    foldState entries ⟨true, rs⟩ = ⟨true, rs ++ giDirs entries⟩ := by
  induction entries generalizing rs with
  | nil => simp [foldState, giDirs]
  | cons e rest ih =>
    have hstep : stepRoots ⟨true, rs⟩ e =
        ⟨true, if hasGitignore e then rs ++ [e.1] else rs⟩ := by
      simp [stepRoots]
    rw [foldState, hstep]
    by_cases hg : hasGitignore e
    · rw [if_pos hg, ih]
      simp [giDirs, List.filter_cons, hg]
    · rw [if_neg hg, ih]
      simp [giDirs, List.filter_cons, hg]

theorem foldState_from_start (entries : List WalkEntry) :
    foldState entries ⟨false, []⟩ =
      ⟨!(giDirs entries).isEmpty, (giDirs entries).tail⟩ := by
  induction entries with
  | nil => simp [foldState, giDirs]
  | cons e rest ih =>
    by_cases hg : hasGitignore e
    · have hstep : stepRoots ⟨false, []⟩ e = ⟨true, []⟩ := by
        simp [stepRoots, hg]
      rw [foldState, hstep, foldState_main_found]
      simp [giDirs, List.filter_cons, hg]
    · have hstep : stepRoots ⟨false, []⟩ e = ⟨false, []⟩ := by
        simp [stepRoots, hg]
      rw [foldState, hstep, ih]
      simp [giDirs, List.filter_cons, hg]

theorem mem_entryRecords {parse : String → Except String PyStmtList}
    {patterns : List RuleSet} {ii nn : Bool} {igf : List String}
    {st : WalkState} {entry : WalkEntry} {rec : FileRec}
    (h : rec ∈ entryRecords parse patterns ii nn igf st entry) :
    ∃ f ∈ entry.2,
      skip_conditions ii patterns igf (entry.1 ++ [f.1]) f.1 = false ∧
      rec.path = entry.1 ++ [f.1] ∧
      rec.in_related_repo =
        ((stepRoots st entry).related_repo_roots.any
          fun root => root.isPrefixOf (entry.1 ++ [f.1])) := by
  rcases List.mem_filterMap.mp h with ⟨f, hf, heq⟩
  refine ⟨f, hf, ?_⟩
  dsimp only at heq
  split at heq
  · cases heq
  · next hskip =>
    split at heq
    · cases heq
    · next hnn =>
      cases heq
      exact ⟨Bool.eq_false_iff.mpr hskip, rfl, rfl⟩

theorem mem_walkFileRecords {parse : String → Except String PyStmtList}
    {patterns : List RuleSet} {ii nn : Bool} {igf : List String}
    {entries : List WalkEntry} {st : WalkState} {rec : FileRec}
    (h : rec ∈ walkFileRecords parse patterns ii nn igf entries st) :
    ∃ pre e post, entries = pre ++ e :: post ∧
      rec ∈ entryRecords parse patterns ii nn igf (foldState pre st) e := by
  induction entries generalizing st with
  | nil => cases h
  | cons e rest ih =>
    rcases List.mem_append.mp h with hleft | hright
    · exact ⟨[], e, rest, rfl, hleft⟩
    · obtain ⟨pre, e', post, heq, hmem⟩ := ih hright
      exact ⟨e :: pre, e', post, by simp [heq], hmem⟩

/-- C2: during the walk (no explicit allow-list), a surviving file is
classified as related exactly when it lies under one of the
`.gitignore`-declaring directories visited after the first one; every other
surviving file is primary.  The hypothesis is the top-down guarantee of
`os.walk`: no directory listed later in the walk is an ancestor of a file
of an earlier entry. -/
theorem c2_related_iff_under_later_gitignore_dir
    (parse : String → Except String PyStmtList) (patterns : List RuleSet)
    (include_ignored no_nest : Bool) (ignore_files : List String)
    (entries : List WalkEntry)
    (hw : List.Pairwise noLaterAncestor entries) :
    ∀ rec ∈ walkFileRecords parse patterns include_ignored no_nest ignore_files
        entries ⟨false, []⟩,
      rec.in_related_repo = specRelatedRoot entries rec.path := by
  intro rec hrec
  obtain ⟨pre, e, post, rfl, hmem⟩ := mem_walkFileRecords hrec
  obtain ⟨f, hf, _hskip, hpath, hrel⟩ := mem_entryRecords hmem
  have hroots : (stepRoots (foldState pre ⟨false, []⟩) e).related_repo_roots =
      (giDirs (pre ++ [e])).tail := by
    have hfold : stepRoots (foldState pre ⟨false, []⟩) e =
        foldState (pre ++ [e]) ⟨false, []⟩ := by
      rw [foldState_append]
      rfl
    rw [hfold, foldState_from_start]
  have hpost : ∀ r ∈ giDirs post, r.isPrefixOf (e.1 ++ [f.1]) = false := by
    intro r hr
    obtain ⟨e', he'f, he'1⟩ : ∃ e' ∈ post, e'.1 = r := by
      simp only [giDirs, List.mem_map, List.mem_filter] at hr
      obtain ⟨e', ⟨hm, _⟩, h1⟩ := hr
      exact ⟨e', hm, h1⟩
    have hNL : noLaterAncestor e e' :=
      (List.pairwise_cons.mp (List.pairwise_append.mp hw).2.1).1 e' he'f
    rw [← he'1]
    exact Bool.eq_false_iff.mpr (hNL f hf)
  have hassoc : pre ++ e :: post = (pre ++ [e]) ++ post := by simp
  rw [hrel, hroots, hpath, hassoc]
  unfold specRelatedRoot
  have hsplit : giDirs (pre ++ [e] ++ post) = giDirs (pre ++ [e]) ++ giDirs post :=
    giDirs_append _ _
  rw [hsplit]
  cases hA : giDirs (pre ++ [e]) with
  | nil =>
    simp only [List.nil_append]
    have htail : ∀ r ∈ (giDirs post).tail, r.isPrefixOf (e.1 ++ [f.1]) = false :=
      fun r hr => hpost r ((List.tail_sublist (giDirs post)).subset hr)
    simp only [List.tail_nil, List.any_nil]
    exact (List.any_eq_false.mpr fun r hr => Bool.eq_false_iff.mp (htail r hr)).symm
  | cons g gs =>
    simp only [List.cons_append, List.tail_cons, List.any_append]
    have hpostany :
        (giDirs post).any (fun root => root.isPrefixOf (e.1 ++ [f.1])) = false :=
      List.any_eq_false.mpr fun r hr => Bool.eq_false_iff.mp (hpost r hr)
    rw [hpostany, Bool.or_false]

instance (e e' : WalkEntry) : Decidable (noLaterAncestor e e') :=
  inferInstanceAs (Decidable (∀ f ∈ e.2, ¬ (e'.1.isPrefixOf (e.1 ++ [f.1]) = true)))

theorem c2_witness :
    List.Pairwise noLaterAncestor
      [(["r"], [(".gitignore", ""), ("a.py", "x")]),
       (["r", "vendor"], [(".gitignore", ""), ("b.py", "y")])] ∧
    true = specRelatedRoot
      [(["r"], [(".gitignore", ""), ("a.py", "x")]),
       (["r", "vendor"], [(".gitignore", ""), ("b.py", "y")])]
      ["r", "vendor", "b.py"] :=
  ⟨by decide,
    c2_related_iff_under_later_gitignore_dir (fun _ => .error "e0") [] false false []
      [(["r"], [(".gitignore", ""), ("a.py", "x")]),
       (["r", "vendor"], [(".gitignore", ""), ("b.py", "y")])]
      (by decide)
      ⟨["r", "vendor", "b.py"], true, "# SyntaxError while parsing: e0"⟩
      (by decide)⟩

/-! ## C7: explicit allow-list errors are fatal -/

/-- A listed filename is bad when it resolves outside the base or does not
exist. -/
def badFilename (walk : List WalkEntry) (base_path filename : List String) : Prop :=
  ¬ ((resolvePath base_path).isPrefixOf (resolvePath (base_path ++ filename)) = true) ∨
    pathExists walk (resolvePath (base_path ++ filename)) = false

instance (walk : List WalkEntry) (base_path filename : List String) :
    Decidable (badFilename walk base_path filename) :=
  inferInstanceAs (Decidable (_ ∨ _))

theorem processFilenames_error_of_bad (walk : List WalkEntry)
    (base_path : List String) :
    ∀ (filenames : List (List String)),
      (∃ filename ∈ filenames, badFilename walk base_path filename) →
      ∃ e, processFilenames walk base_path filenames = .error e := by
  intro filenames
  induction filenames with
  | nil => rintro ⟨_, h, _⟩; cases h
  | cons f rest ih =>
    rintro ⟨g, hg, hbad⟩
    by_cases h1 :
        (!((resolvePath base_path).isPrefixOf (resolvePath (base_path ++ f)))) = true
    · exact ⟨_, by simp only [processFilenames]; rw [if_pos h1]⟩
    · by_cases h2 : (!(pathExists walk (resolvePath (base_path ++ f)))) = true
      · exact ⟨_, by simp only [processFilenames]; rw [if_neg h1, if_pos h2]⟩
      · have hpre :
            (resolvePath base_path).isPrefixOf (resolvePath (base_path ++ f)) = true := by
          revert h1
          cases (resolvePath base_path).isPrefixOf (resolvePath (base_path ++ f)) <;> simp
        have hex : pathExists walk (resolvePath (base_path ++ f)) = true := by
          revert h2
          cases pathExists walk (resolvePath (base_path ++ f)) <;> simp
        have hgrest : g ∈ rest := by
          rcases List.mem_cons.mp hg with rfl | hr
          · rcases hbad with hb | hb
            · exact absurd hpre hb
            · rw [hex] at hb; cases hb
          · exact hr
        obtain ⟨e, he⟩ := ih ⟨g, hgrest, hbad⟩
        cases hfind : findWalkFile walk (resolvePath (base_path ++ f)) with
        | none =>
          exact ⟨_, by simp only [processFilenames]; rw [if_neg h1, if_neg h2, hfind]⟩
        | some content =>
          exact ⟨e, by simp only [processFilenames]; rw [if_neg h1, if_neg h2, hfind, he]⟩

/-- C7: with an explicit allow-list, a listed file that is missing or that
resolves outside the root makes the whole run fail: the dump returns an
error and no document is produced. -/
theorem c7_bad_explicit_file_is_fatal (parse : String → Except String PyStmtList)
    (base_path : List String) (walk : List WalkEntry)
    (no_nest include_ignored : Bool) (filenames : List (List String))
    (ignore_files : List String) (include_tree : Bool)
    (h : ∃ filename ∈ filenames, badFilename walk base_path filename) :
    ∃ e, dump_repository_structure_and_files parse base_path walk no_nest
      include_ignored (some filenames) ignore_files include_tree = .error e := by
  obtain ⟨g, hg, hbad⟩ := h
  cases filenames with
  | nil => cases hg
  | cons f rest =>
    obtain ⟨e, he⟩ :=
      processFilenames_error_of_bad walk base_path (f :: rest) ⟨g, hg, hbad⟩
    refine ⟨e, ?_⟩
    simp only [dump_repository_structure_and_files, he]

theorem c7_witness :
    (∃ filename ∈ [["README.md"]],
      badFilename [(["r"], [("a.txt", "x")])] ["r"] filename) ∧
    ∃ e, dump_repository_structure_and_files (fun _ => .error "") ["r"]
      [(["r"], [("a.txt", "x")])] false false (some [["README.md"]]) [] true =
        .error e :=
  ⟨⟨["README.md"], by decide, by decide⟩,
    c7_bad_explicit_file_is_fatal (fun _ => .error "") ["r"]
      [(["r"], [("a.txt", "x")])] false false [["README.md"]] [] true
      ⟨["README.md"], by decide, by decide⟩⟩

/-! ## C9: re-summarizing the summarizer's own output -/

/-- The summarizer on a parse failure. -/
theorem extract_of_error (parse : String → Except String PyStmtList)
    (t e : String) (h : parse t = .error e) :
    extract_function_defs_and_docstrings parse t =
      "# SyntaxError while parsing: " ++ e := by
  unfold extract_function_defs_and_docstrings
  rw [h]
  exact pyJoin_singleton _ _

/-- The summarizer on a parse success. -/
theorem extract_of_ok (parse : String → Except String PyStmtList)
    (t : String) (body : PyStmtList) (h : parse t = .ok body) :
    extract_function_defs_and_docstrings parse t =
      pyJoin "\n" (process_body body 0) := by
  unfold extract_function_defs_and_docstrings
  rw [h]

/-- C9: for any source on which the summarizer succeeds, applying it to its
own output cannot raise: the second application returns either the
structural digest (when the output parses) or the parse-error marker (when
it does not) — the function is total, so there is no third outcome and no
divergence. -/
theorem c9_resummarize_degrades_gracefully
    (parse : String → Except String PyStmtList) (s : String)
    (body : PyStmtList) (_h : parse s = .ok body) :
    (∃ e, parse (extract_function_defs_and_docstrings parse s) = .error e ∧
      extract_function_defs_and_docstrings parse
          (extract_function_defs_and_docstrings parse s) =
        "# SyntaxError while parsing: " ++ e) ∨
    (∃ body2, parse (extract_function_defs_and_docstrings parse s) = .ok body2 ∧
      extract_function_defs_and_docstrings parse
          (extract_function_defs_and_docstrings parse s) =
        pyJoin "\n" (process_body body2 0)) := by
  cases hsnd : parse (extract_function_defs_and_docstrings parse s) with
  | error e => exact Or.inl ⟨e, rfl, extract_of_error parse _ e hsnd⟩
  | ok body2 => exact Or.inr ⟨body2, rfl, extract_of_ok parse _ body2 hsnd⟩

theorem c9_witness :
    (fun t => if t = "x = 1" then Except.ok (PyStmtList.cons (.assign ["x"]) .nil)
        else Except.error "invalid syntax") "x = 1" =
      Except.ok (PyStmtList.cons (.assign ["x"]) .nil) ∧
    ((∃ e, (fun t => if t = "x = 1" then Except.ok (PyStmtList.cons (.assign ["x"]) .nil)
        else Except.error "invalid syntax")
          (extract_function_defs_and_docstrings
            (fun t => if t = "x = 1" then Except.ok (PyStmtList.cons (.assign ["x"]) .nil)
              else Except.error "invalid syntax") "x = 1") = .error e ∧
      extract_function_defs_and_docstrings
          (fun t => if t = "x = 1" then Except.ok (PyStmtList.cons (.assign ["x"]) .nil)
            else Except.error "invalid syntax")
          (extract_function_defs_and_docstrings
            (fun t => if t = "x = 1" then Except.ok (PyStmtList.cons (.assign ["x"]) .nil)
              else Except.error "invalid syntax") "x = 1") =
        "# SyntaxError while parsing: " ++ e) ∨
    (∃ body2, (fun t => if t = "x = 1" then Except.ok (PyStmtList.cons (.assign ["x"]) .nil)
        else Except.error "invalid syntax")
          (extract_function_defs_and_docstrings
            (fun t => if t = "x = 1" then Except.ok (PyStmtList.cons (.assign ["x"]) .nil)
              else Except.error "invalid syntax") "x = 1") = .ok body2 ∧
      extract_function_defs_and_docstrings
          (fun t => if t = "x = 1" then Except.ok (PyStmtList.cons (.assign ["x"]) .nil)
            else Except.error "invalid syntax")
          (extract_function_defs_and_docstrings
            (fun t => if t = "x = 1" then Except.ok (PyStmtList.cons (.assign ["x"]) .nil)
              else Except.error "invalid syntax") "x = 1") =
        pyJoin "\n" (process_body body2 0))) :=
  ⟨rfl,
    c9_resummarize_degrades_gracefully
      (fun t => if t = "x = 1" then Except.ok (PyStmtList.cons (.assign ["x"]) .nil)
        else Except.error "invalid syntax")
      "x = 1" (PyStmtList.cons (.assign ["x"]) .nil) rfl⟩

/-! ## C8: the explicit deny-list always excludes -/

theorem leafKeys_treeSetLeaf (key : String) (t : PyTree) :
    ∀ x ∈ leafKeys (treeSetLeaf key t), x ∈ leafKeys t ∨ x = key := by
  induction t with
  | nil =>
    intro x hx
    right
    simpa [treeSetLeaf, leafKeys] using hx
  | file k rest ih =>
    intro x hx
    by_cases h : k = key
    · rw [treeSetLeaf, if_pos h] at hx
      exact Or.inl hx
    · rw [treeSetLeaf, if_neg h] at hx
      rcases List.mem_cons.mp hx with rfl | hx
      · exact Or.inl (List.mem_cons_self _ _)
      · rcases ih x hx with h' | h'
        · exact Or.inl (List.mem_cons_of_mem _ h')
        · exact Or.inr h'
  | dir k sub rest ihsub ihrest =>
    intro x hx
    by_cases h : k = key
    · rw [treeSetLeaf, if_pos h] at hx
      rcases List.mem_cons.mp hx with rfl | hx
      · exact Or.inr h
      · exact Or.inl (List.mem_append_right _ hx)
    · rw [treeSetLeaf, if_neg h] at hx
      rcases List.mem_append.mp hx with hx | hx
      · exact Or.inl (List.mem_append_left _ hx)
      · rcases ihrest x hx with h' | h'
        · exact Or.inl (List.mem_append_right _ h')
        · exact Or.inr h'

theorem leafKeys_treeSetDir (key : String) (newSub : PyTree) (t : PyTree) :
    ∀ x ∈ leafKeys (treeSetDir key newSub t),
      x ∈ leafKeys newSub ∨ x ∈ leafKeys t := by
  induction t with
  | nil =>
    intro x hx
    cases hx
  | file k rest ih =>
    intro x hx
    rw [treeSetDir] at hx
    rcases List.mem_cons.mp hx with rfl | hx
    · exact Or.inr (List.mem_cons_self _ _)
    · rcases ih x hx with h' | h'
      · exact Or.inl h'
      · exact Or.inr (List.mem_cons_of_mem _ h')
  | dir k sub rest ihsub ihrest =>
    intro x hx
    by_cases h : k = key
    · rw [treeSetDir, if_pos h] at hx
      rcases List.mem_append.mp hx with hx | hx
      · exact Or.inl hx
      · exact Or.inr (List.mem_append_right _ hx)
    · rw [treeSetDir, if_neg h] at hx
      rcases List.mem_append.mp hx with hx | hx
      · exact Or.inr (List.mem_append_left _ hx)
      · rcases ihrest x hx with h' | h'
        · exact Or.inl h'
        · exact Or.inr (List.mem_append_right _ h')

theorem leafKeys_treeAppendDir (key : String) (sub : PyTree) (t : PyTree) :
    ∀ x ∈ leafKeys (treeAppendDir key sub t),
      x ∈ leafKeys sub ∨ x ∈ leafKeys t := by
  induction t with
  | nil =>
    intro x hx
    simp only [treeAppendDir, leafKeys, List.append_nil] at hx
    exact Or.inl hx
  | file k rest ih =>
    intro x hx
    rw [treeAppendDir] at hx
    rcases List.mem_cons.mp hx with rfl | hx
    · exact Or.inr (List.mem_cons_self _ _)
    · rcases ih x hx with h' | h'
      · exact Or.inl h'
      · exact Or.inr (List.mem_cons_of_mem _ h')
  | dir k s rest ihsub ihrest =>
    intro x hx
    rw [treeAppendDir] at hx
    rcases List.mem_append.mp hx with hx | hx
    · exact Or.inr (List.mem_append_left _ hx)
    · rcases ihrest x hx with h' | h'
      · exact Or.inl h'
      · exact Or.inr (List.mem_append_right _ h')

theorem leafKeys_treeLookup_sub {p : String} {t sub : PyTree}
    (hl : treeLookup p t = some (some sub)) :
    ∀ x ∈ leafKeys sub, x ∈ leafKeys t := by
  induction t with
  | nil => cases hl
  | file k rest ih =>
    by_cases h : k = p
    · rw [treeLookup, if_pos h] at hl
      cases hl
    · rw [treeLookup, if_neg h] at hl
      exact fun x hx => List.mem_cons_of_mem _ (ih hl x hx)
  | dir k s rest ihsub ihrest =>
    by_cases h : k = p
    · rw [treeLookup, if_pos h] at hl
      cases hl
      exact fun x hx => List.mem_append_left _ hx
    · rw [treeLookup, if_neg h] at hl
      exact fun x hx => List.mem_append_right _ (ihrest hl x hx)

/-- Inserting a file into the tree adds no leaf key other than the last
path segment. -/
theorem leafKeys_insertParts :
    ∀ (parts : List String) (t : PyTree) (x : String),
      x ∈ leafKeys (insertParts parts t) →
      x ∈ leafKeys t ∨ parts.getLast? = some x := by
  intro parts
  induction parts with
  | nil => exact fun t x hx => Or.inl hx
  | cons p ps ih =>
    intro t x hx
    cases ps with
    | nil =>
      rcases leafKeys_treeSetLeaf p t x hx with h | h
      · exact Or.inl h
      · exact Or.inr (by simp [h])
    | cons q rest =>
      rw [List.getLast?_cons_cons]
      cases hl : treeLookup p t with
      | none =>
        simp only [insertParts, hl] at hx
        rcases leafKeys_treeAppendDir p _ t x hx with h | h
        · rcases ih PyTree.nil x h with h' | h'
          · cases h'
          · exact Or.inr h'
        · exact Or.inl h
      | some o =>
        cases o with
        | none =>
          simp only [insertParts, hl] at hx
          exact Or.inl hx
        | some sub =>
          simp only [insertParts, hl] at hx
          rcases leafKeys_treeSetDir p _ t x hx with h | h
          · rcases ih sub x h with h' | h'
            · -- a leaf of `sub` is a leaf of `t`
              exact Or.inl (leafKeys_treeLookup_sub hl x h')
            · exact Or.inr h'
          · exact Or.inl h

/-- C8: a filename on the explicit deny-list (`--ignore-file`) is excluded
from both the tree rendering and the content walk, whatever the value of
the hidden/ignored override flag (`include_ignored`): the built tree has no
leaf with that name, and no surviving walk record's file name is that name.
The hypothesis is the `os.walk` guarantee that every visited directory lies
under the base path. -/
theorem c8_deny_list_always_excludes
    (parse : String → Except String PyStmtList) (base_path : List String)
    (walk : List WalkEntry) (patterns : List RuleSet)
    (include_ignored no_nest : Bool) (ignore_files : List String)
    (fname : String)
    (hBase : ∀ e ∈ walk, base_path.isPrefixOf e.1 = true)
    (hMem : fname ∈ ignore_files) :
    fname ∉ leafKeys
        (build_tree_structure base_path walk patterns include_ignored ignore_files) ∧
    (∀ rec ∈ walkFileRecords parse patterns include_ignored no_nest ignore_files
        (pruneWalk base_path walk) ⟨false, []⟩,
      rec.path.getLast? ≠ some fname) := by
  have hcontains : ∀ g : String, g = fname → ignore_files.contains g = true :=
    fun g hg => hg ▸ List.elem_eq_true_of_mem hMem
  have hskip_name : ∀ (file_path : List String) (g : String),
      skip_conditions include_ignored patterns ignore_files file_path g = false →
      g ≠ fname := by
    intro file_path g hskip hg
    have hc : ignore_files.contains g = false :=
      (Bool.or_eq_false_iff.mp hskip).2
    rw [hcontains g hg] at hc
    cases hc
  constructor
  · have hinner : ∀ (entry : WalkEntry), base_path.isPrefixOf entry.1 = true →
        ∀ (files : List (String × String)) (tree : PyTree), fname ∉ leafKeys tree →
        fname ∉ leafKeys (files.foldl
          (fun tree f =>
            if skip_conditions include_ignored patterns ignore_files
                (entry.1 ++ [f.1]) f.1 then
              tree
            else
              insertParts
                (base_path.getLastD "" :: (entry.1 ++ [f.1]).drop base_path.length)
                tree)
          tree) := by
      intro entry hpre files
      induction files with
      | nil => exact fun tree ht => ht
      | cons f fs ih =>
        intro tree ht
        rw [List.foldl_cons]
        apply ih
        by_cases hskip : skip_conditions include_ignored patterns ignore_files
            (entry.1 ++ [f.1]) f.1 = true
        · rw [if_pos hskip]
          exact ht
        · rw [if_neg hskip]
          intro hx
          rcases leafKeys_insertParts _ _ _ hx with h | h
          · exact ht h
          · have hk : base_path.length ≤ entry.1.length :=
              (List.isPrefixOf_iff_prefix.mp hpre).length_le
            have hdrop : (entry.1 ++ [f.1]).drop base_path.length =
                entry.1.drop base_path.length ++ [f.1] :=
              List.drop_append_of_le_length hk
            rw [hdrop, ← List.cons_append, List.getLast?_concat] at h
            have : f.1 = fname := (Option.some.injEq _ _).mp h
            exact hskip_name _ _ (Bool.eq_false_iff.mpr hskip) this
    have houter : ∀ (entries : List WalkEntry),
        (∀ e ∈ entries, base_path.isPrefixOf e.1 = true) →
        ∀ (tree : PyTree), fname ∉ leafKeys tree →
        fname ∉ leafKeys (entries.foldl
          (fun tree entry =>
            entry.2.foldl
              (fun tree f =>
                if skip_conditions include_ignored patterns ignore_files
                    (entry.1 ++ [f.1]) f.1 then
                  tree
                else
                  insertParts
                    (base_path.getLastD "" ::
                      (entry.1 ++ [f.1]).drop base_path.length)
                    tree)
              tree)
          tree) := by
      intro entries
      induction entries with
      | nil => exact fun _ tree ht => ht
      | cons e rest ih =>
        intro hall tree ht
        rw [List.foldl_cons]
        exact ih (fun e' he' => hall e' (List.mem_cons_of_mem _ he'))
          _ (hinner e (hall e (List.mem_cons_self _ _)) e.2 tree ht)
    have hbase' : ∀ e ∈ pruneWalk base_path walk, base_path.isPrefixOf e.1 = true :=
      fun e he => hBase e (List.mem_of_mem_filter he)
    exact houter (pruneWalk base_path walk) hbase'
      (.dir (base_path.getLastD "") .nil .nil) (by simp [leafKeys])
  · intro rec hrec
    obtain ⟨pre, e, post, heq, hmem⟩ := mem_walkFileRecords hrec
    obtain ⟨f, hf, hskip, hpath, _⟩ := mem_entryRecords hmem
    rw [hpath, List.getLast?_concat]
    intro hcontra
    exact hskip_name _ _ hskip ((Option.some.injEq _ _).mp hcontra)

theorem c8_witness :
    (∀ e ∈ [((["r"], [("keep.txt", "k"), ("drop.txt", "d")]) : WalkEntry)],
      (["r"] : List String).isPrefixOf e.1 = true) ∧
    "drop.txt" ∉ leafKeys
      (build_tree_structure ["r"] [(["r"], [("keep.txt", "k"), ("drop.txt", "d")])]
        [] true ["drop.txt"]) :=
  ⟨by decide,
    (c8_deny_list_always_excludes (fun _ => .error "") ["r"]
        [(["r"], [("keep.txt", "k"), ("drop.txt", "d")])] [] true false
        ["drop.txt"] "drop.txt" (by decide) (by decide)).1⟩
